import Mathlib

/-!
Shallow embedding of the papr parser/serializer (src/parsers/cpp/papr.hpp)
and proofs about the specification claims.

Conventions of the embedding:
* `std::string` text payloads are modelled as `List Char`; the public entry
  points take `String` and convert.  All characters of interest are ASCII.
* C++ code that can fail (returning the INVALID sentinel node) is modelled
  with `Option`: `none` stands for returning `Papr::Node::INVALID`.
* `uint32_t` columns/lines are modelled as `Nat`; their overflow can only
  trigger on inputs of length at least 2^32 and is irrelevant to every claim.
  The one place where `uint32_t` wraparound is semantically reachable on small
  inputs (`depth - 2` in the serializer) keeps an explicit `% 2^32`.
-/

namespace Papr

/-- Node kinds, mirroring `enum Papr::NodeType` (papr.hpp lines 42-48). -/
inductive NodeType : Type where
  | None
  | Group
  | Key
  | Value
deriving DecidableEq, Repr

/-- The node tree, mirroring `struct Papr::Node` (papr.hpp lines 54-158):
a kind (`m_type`), a text payload (`m_text`) and an ordered list of owned
children (`m_children`). -/
inductive Node : Type where
  | mk (m_type : NodeType) (m_text : List Char) (m_children : List Node) : Node
deriving Repr

/-- Projection for the `m_type` field. -/
def Node.m_type : Node → NodeType
  | .mk t _ _ => t

/-- Projection for the `m_text` field. -/
def Node.m_text : Node → List Char
  | .mk _ x _ => x

/-- Projection for the `m_children` field. -/
def Node.m_children : Node → List Node
  | .mk _ _ cs => cs

/-- `Papr::Node::MakeGroup` (papr.hpp lines 560-565). -/
def Node.MakeGroup : Node := .mk NodeType.Group [] []

/-- `Papr::Node::MakeKey` (papr.hpp lines 567-573). -/
def Node.MakeKey (key : List Char) : Node := .mk NodeType.Key key []

/-- `Papr::Node::MakeValue` (papr.hpp lines 575-581). -/
def Node.MakeValue (value : List Char) : Node := .mk NodeType.Value value []

namespace Internal

/-- Token kinds with their bit-flag values, mirroring
`enum Papr::Internal::TokenType` (papr.hpp lines 166-171). -/
inductive TokenType : Type where
  | None
  | Text
  | Colon
deriving DecidableEq, Repr

/-- The numeric flag of a token type: `None = 1 << 0`, `Text = 1 << 1`,
`Colon = 1 << 2`. -/
def TokenType.flag : TokenType → Nat
  | .None => 1
  | .Text => 2
  | .Colon => 4

/-- A token, mirroring `struct Papr::Internal::Token` (papr.hpp lines
178-184). -/
structure Token : Type where
  ttype : TokenType := TokenType.None
  text : List Char := []
  column : Nat := 0
  line : Nat := 0
deriving Repr

/-- Removes up to `n` leading characters, stopping early at a newline.
This models one `result.erase(start, std::min(tokenStartCol, length))` call
of `Papr::Internal::Trim` (papr.hpp line 341), where `length` is the distance
to the next newline. -/
def eraseUpToNewline : Nat → List Char → List Char
  | 0, cs => cs
  | _ + 1, [] => []
  | n + 1, c :: cs => if c = '\n' then c :: cs else eraseUpToNewline n cs

/-- The dedent loop of `Papr::Internal::Trim` (papr.hpp lines 331-343):
after every newline, up to `col` characters (bounded by the line length) are
removed from the start of the following line.  `skip` is the number of
characters still to be removed on the current line (0 outside an erase). -/
def dedentGo (col : Nat) : Nat → List Char → List Char
  | _, [] => []
  | 0, c :: cs => if c = '\n' then c :: dedentGo col col cs else c :: dedentGo col 0 cs
  | skip + 1, c :: cs => if c = '\n' then c :: dedentGo col col cs else dedentGo col skip cs

/-- The leading/trailing space removal of `Papr::Internal::Trim` (papr.hpp
lines 301-323): `start` is the index of the first non-space character (0
when there is none) and `stop` that of the last one (`length - 1` when there
is none), and the scan keeps `token[start..stop]` inclusively, exactly as
the C++ `substr( start, end - start + 1 )`. -/
def trimSpaces (token : List Char) : List Char :=
  let start := (token.findIdx? (fun c => c != ' ')).getD 0
  let stop :=
    match token.reverse.findIdx? (fun c => c != ' ') with
    | some j => token.length - 1 - j
    | none => token.length - 1
  (token.drop start).take (stop + 1 - start)

/-- `Papr::Internal::Trim` (papr.hpp lines 299-346): trim leading/trailing
spaces; if the result is quote-wrapped, strip the leading quote and the
trailing quote when present, then dedent every line after a newline by up to
`tokenStartCol` characters. -/
def Trim (token : List Char) (tokenStartCol : Nat) : List Char :=
  match token with
  | [] => []
  | _ :: _ =>
    match trimSpaces token with
    | '"' :: r2 =>
      let result := '"' :: r2
      dedentGo tokenStartCol 0
        ((result.drop 1).take
          (result.length - (if result.getLast? = some '"' then 2 else 1)))
    | r => r

/-- The NUL character, standing for the `'\0'` sentinel the C++ scanner uses
for out-of-range neighbours and end-of-input lookahead. -/
def nul : Char := Char.ofNat 0

/-- The delimiter predicate of `Papr::Internal::Tokenize` (papr.hpp lines
379-382). -/
def isDelimiter (c : Char) : Bool :=
  c = ':' || c = '\n' || c = '#' || c = nul

/-- The mutable scan state of `Papr::Internal::Tokenize` (papr.hpp lines
355-375).  `pendingToken` is the C++ `partialToken` accumulator. -/
structure TokenizeState : Type where
  tokens : List Token := []
  pendingToken : List Char := []
  charCol : Nat := 0
  charLine : Nat := 1
  tokenStartCol : Nat := 0
  tokenStartLine : Nat := 0
  inQuotes : Bool := false
  tokenHasContent : Bool := false
  inComment : Bool := false
deriving Repr

/-- One iteration of the scan loop of `Papr::Internal::Tokenize` (papr.hpp
lines 384-459): `pc` is the previous character, `c` the current one and `nc`
the next one ( `'\0'` when out of range). -/
def tokenizeStep (s : TokenizeState) (pc c nc : Char) : TokenizeState :=
  let charCol := if c = '\n' then 0 else s.charCol + 1
  let charLine := if c = '\n' then s.charLine + 1 else s.charLine
  let isFirstCharInToken := !s.tokenHasContent && c != ' ' && c != '\n'
  let tokenHasContent := s.tokenHasContent || isFirstCharInToken
  let tokenStartCol := if isFirstCharInToken then charCol else s.tokenStartCol
  let tokenStartLine := if isFirstCharInToken then charLine else s.tokenStartLine
  let inQuotes := if isFirstCharInToken && c = '"' then true else s.inQuotes
  let inQuotes :=
    if inQuotes && c = '"' && !isFirstCharInToken && pc != '\\' then false else inQuotes
  let inComment := if !inQuotes && c = '#' then true else s.inComment
  let (inComment, pendingToken, tokenHasContent) :=
    if inComment && c = '\n' then (false, [], false)
    else (inComment, s.pendingToken, tokenHasContent)
  if !inComment && (inQuotes || !isDelimiter c) then
    let pendingToken := pendingToken ++ [c]
    if !inQuotes && isDelimiter nc && tokenHasContent then
      { tokens := s.tokens ++
          [{ ttype := TokenType.Text, text := Trim pendingToken tokenStartCol,
             column := tokenStartCol, line := tokenStartLine }],
        pendingToken := [], charCol, charLine, tokenStartCol, tokenStartLine,
        inQuotes, tokenHasContent := false, inComment }
    else
      { tokens := s.tokens, pendingToken, charCol, charLine, tokenStartCol,
        tokenStartLine, inQuotes, tokenHasContent, inComment }
  else if !inComment && c = ':' then
    { tokens := s.tokens ++
        [{ ttype := TokenType.Colon, text := [], column := charCol, line := charLine }],
      pendingToken := [], charCol, charLine, tokenStartCol, tokenStartLine,
      inQuotes, tokenHasContent := false, inComment }
  else
    { tokens := s.tokens, pendingToken, charCol, charLine, tokenStartCol,
      tokenStartLine, inQuotes, tokenHasContent, inComment }

/-- Runs the scan loop over the remaining characters; `pc` is the character
just before them (`'\0'` at the start of the document). -/
def tokenizeGo (s : TokenizeState) (pc : Char) : List Char → List Token
  | [] => s.tokens
  | c :: rest => tokenizeGo (tokenizeStep s pc c (rest.headD nul)) c rest

/-- `Papr::Internal::Tokenize` (papr.hpp lines 355-462). -/
def Tokenize (data : String) : List Token :=
  tokenizeGo {} nul data.toList

end Internal

/-- The `combined_text` accumulation of `Papr::Node::Simplify` (papr.hpp
lines 756-762): the children's texts joined by a single space each. -/
def combineTexts : List Node → List Char
  | [] => []
  | [c] => c.m_text
  | c :: c2 :: cs => c.m_text ++ ' ' :: combineTexts (c2 :: cs)

/-- Rule 1 of `Papr::Node::Simplify` (papr.hpp lines 730-738): a `Key` node
whose only child is a `Group` node takes over the group's children. -/
def collapseLoneGroup (ty : NodeType) (cs : List Node) : List Node :=
  match ty, cs with
  | NodeType.Key, [Node.mk NodeType.Group _ gcs] => gcs
  | _, _ => cs

/-- Rule 2 of `Papr::Node::Simplify` (papr.hpp lines 740-766): a `Key` or
`Group` node with more than one child, all of them `Value` nodes, replaces
them by a single `Value` child carrying the space-joined texts. -/
def mergeAllValues (ty : NodeType) (cs : List Node) : List Node :=
  if (ty = NodeType.Key ∨ ty = NodeType.Group) ∧ 1 < cs.length ∧
      (∀ c ∈ cs, c.m_type = NodeType.Value) then
    [Node.MakeValue (combineTexts cs)]
  else cs

/-- Rule 3 of `Papr::Node::Simplify` (papr.hpp lines 768-772): a `Key` node
left without children becomes a `Value` node. -/
def retypeEmptyKey (ty : NodeType) (cs : List Node) : NodeType :=
  if ty = NodeType.Key ∧ cs.length = 0 then NodeType.Value else ty

/-- The non-recursive tail of `Papr::Node::Simplify` (papr.hpp lines
730-772): the three rewrite rules applied, in order, to a node whose
children have already been simplified. -/
def applyRules (ty : NodeType) (tx : List Char) (cs1 : List Node) : Node :=
  .mk (retypeEmptyKey ty (mergeAllValues ty (collapseLoneGroup ty cs1))) tx
    (mergeAllValues ty (collapseLoneGroup ty cs1))

mutual

/-- `Papr::Node::Simplify` (papr.hpp lines 723-773): simplify the children
first, then (1) splice a lone `Group` child of a `Key` node, (2) merge two
or more all-`Value` children of a `Key`/`Group` node into one `Value` joined
by spaces, (3) retype a childless `Key` node into a `Value` node. -/
def Node.Simplify : Node → Node
  | .mk ty tx cs0 => applyRules ty tx (Node.simplifyList cs0)

/-- The recursive `for( Node& child : *this ) child.Simplify();` loop of
`Papr::Node::Simplify` (papr.hpp lines 725-728). -/
def Node.simplifyList : List Node → List Node
  | [] => []
  | c :: cs => c.Simplify :: Node.simplifyList cs

end

/-- `Papr::Node::SimplifyCopy` (papr.hpp lines 775-780). -/
def Node.SimplifyCopy (n : Node) : Node := n.Simplify

/-- The synthetic bottom stack frame's token of `Papr::Parse` (papr.hpp line
205): a default-constructed `Internal::Token` with type `None` and column 0. -/
def rootFrameToken : Internal.Token := {}

/-- The `seekFn` lambda of `Papr::Parse` (papr.hpp lines 207-224), acting on
the stack of frame tokens (head = top of stack).  Frames are popped while
they do not satisfy `column < col && type & token_type_flag`; the suffix of
the stack starting at the matching frame is returned, `[]` when the stack is
exhausted (the C++ `nullptr` case). -/
def seekFn (col : Nat) (token_type_flag : Nat) : List Internal.Token → List Internal.Token
  | [] => []
  | t :: rest =>
    if t.column < col ∧ t.ttype.flag &&& token_type_flag ≠ 0 then t :: rest
    else seekFn col token_type_flag rest

/-- Appends `child` to the children of the node sitting at depth `d` on the
rightmost spine of `n`.  This models the `node_to_attach_to->AddNode(...)`
pointer write of `Papr::Parse` (papr.hpp lines 240, 257): every stack frame's
node is the most recently appended child of the frame below it, so a frame at
stack index `d` (from the bottom) denotes the spine node reached from the
root by taking the last child `d` times. -/
def Node.addAtSpine : Node → Nat → Node → Node
  | .mk ty tx cs, 0, child => .mk ty tx (cs ++ [child])
  | .mk ty tx cs, d + 1, child =>
    match cs.getLast? with
    | Option.none => .mk ty tx cs
    | some l => .mk ty tx (cs.dropLast ++ [l.addAtSpine d child])

/-- The token-consuming loop of `Papr::Parse` (papr.hpp lines 226-266).
The stack holds the frame tokens, head = top; the node of the frame at index
`i` from the bottom is the spine node of the root at depth `i`.
`none` models returning `Node::INVALID`. -/
def buildLoop : List Internal.Token → Node → List Internal.Token → Option Node
  | [], root, _ => some root
  | tok :: rest, root, stack =>
    if tok.ttype = Internal.TokenType.Text then
      match seekFn tok.column
          (Internal.TokenType.Colon.flag ||| Internal.TokenType.None.flag) stack with
      | [] => Option.none
      | f :: fs =>
        buildLoop rest (root.addAtSpine fs.length (Node.MakeKey tok.text)) (tok :: f :: fs)
    else if tok.ttype = Internal.TokenType.Colon then
      match seekFn tok.column Internal.TokenType.Text.flag stack with
      | [] => Option.none
      | f :: fs =>
        buildLoop rest (root.addAtSpine fs.length Node.MakeGroup) (tok :: f :: fs)
    else
      -- A `None` token is impossible (`assert` in the C++, and `Tokenize`
      -- never emits one); the if/else-if chain would skip it.
      buildLoop rest root stack

/-- `Papr::Parse` (papr.hpp lines 193-275): tokenize, build the raw tree on
a frame stack seeded with the synthetic root frame, then simplify.  `none`
models returning `Node::INVALID` on a malformed document. -/
def Parse (data : String) : Option Node :=
  match buildLoop (Internal.Tokenize data) (.mk NodeType.None [] []) [rootFrameToken] with
  | Option.none => Option.none
  | some root => some root.Simplify

namespace Internal

/-- The `add_spaces_fn` lambda of `Papr::Internal::SerializeRecursive`
(papr.hpp lines 474-481). -/
def add_spaces (count : Nat) : List Char := List.replicate count ' '

/-- The quoting trigger of the `sanitize_string` lambda (papr.hpp lines
485-491): text containing a colon, hashtag or newline, starting with a double
quote or a space, or ending with a space must be wrapped in quotes. -/
def sanitizeNeeded (text : List Char) : Bool :=
  text.contains ':' || text.contains '#' || text.contains '\n' ||
  text.headD nul = '"' || text.headD nul = ' ' ||
  (text.getLast? |>.getD nul) = ' '

/-- The character loop of the `sanitize_string` lambda (papr.hpp lines
493-509): escape double quotes with a backslash and re-pad every newline with
`col` spaces. -/
def sanitizeChars (col : Nat) : List Char → List Char
  | [] => []
  | c :: cs =>
    if c = '"' then '\\' :: '"' :: sanitizeChars col cs
    else if c = '\n' then '\n' :: (add_spaces col ++ sanitizeChars col cs)
    else c :: sanitizeChars col cs

/-- The `sanitize_string` lambda of `Papr::Internal::SerializeRecursive`
(papr.hpp lines 483-513). -/
def sanitize_string (text : List Char) (col : Nat) : List Char :=
  if sanitizeNeeded text then '"' :: (sanitizeChars col text ++ ['"']) else text

mutual

/-- `Papr::Internal::SerializeRecursive` (papr.hpp lines 472-553). -/
def SerializeRecursive (depth : Nat) : Node → List Char
  | .mk _ _ cs => serializeChildren depth 0 cs

/-- The `for( const Node& child : node )` loop of `SerializeRecursive`
(papr.hpp lines 515-552), with `child_count` the running sibling index.
The `depth - 2` of the C++ (line 545) is `uint32_t` arithmetic, hence the
explicit wraparound modulo 2^32. -/
def serializeChildren (depth child_count : Nat) : List Node → List Char
  | [] => []
  | child :: rest =>
    let rendered :=
      match child with
      | .mk NodeType.Key key _ =>
        let sanitized_key := sanitize_string key (depth + 1)
        (if child_count ≠ 0 then add_spaces depth else []) ++
          sanitized_key ++ [':', ' '] ++
          SerializeRecursive (depth + sanitized_key.length + 2) child
      | .mk NodeType.Value value _ =>
        (if child_count ≠ 0 then add_spaces depth else []) ++
          sanitize_string value (depth + 1) ++ ['\n']
      | .mk NodeType.Group _ _ =>
        (if child_count ≠ 0 then
            add_spaces ((depth + (4294967296 - 2)) % 4294967296) ++ [':', ' ']
          else []) ++
          SerializeRecursive depth child
      | .mk NodeType.None _ _ => []
    rendered ++ serializeChildren depth (child_count + 1) rest

end

end Internal

/-- `Papr::Serialize` (papr.hpp lines 284-290): simplify a copy, then render
recursively starting at depth 0. -/
def Serialize (node : Node) : String :=
  String.mk (Internal.SerializeRecursive 0 node.SimplifyCopy)

/-- `Papr::Node::operator[](size_t)` (papr.hpp lines 614-625): bounds-checked
positional indexing; `none` models returning `INVALID`.  The inner null
check of the C++ cannot fail (children are always populated pointers). -/
def Node.getAtIndex (n : Node) (index : Nat) : Option Node :=
  if h : index < n.m_children.length then some (n.m_children.get ⟨index, h⟩)
  else Option.none

/-- The child scan of `Papr::Node::operator[](const std::string&)` (papr.hpp
lines 632-648): first child that is a `Key` node with exactly matching text. -/
def findKeyChild : List Node → List Char → Option Node
  | [], _ => Option.none
  | c :: cs, key =>
    if c.m_type = NodeType.Key ∧ c.m_text = key then some c
    else findKeyChild cs key

/-- `Papr::Node::operator[](const std::string&)` (papr.hpp lines 632-648);
`none` models returning `INVALID`. -/
def Node.getByKey (n : Node) (key : List Char) : Option Node :=
  findKeyChild n.m_children key

/-- `Papr::Node::HasValue` (papr.hpp lines 677-693): a `Key` or `Group` node
with exactly one child that is a `Value` node. -/
def Node.HasValue (n : Node) : Bool :=
  (n.m_type = NodeType.Key || n.m_type = NodeType.Group) &&
    match n.m_children with
    | [c] => c.m_type = NodeType.Value
    | _ => false

/-- `Papr::Node::GetValue` (papr.hpp lines 695-702); `none` models returning
the sentinel's text member. -/
def Node.GetValue (n : Node) : Option (List Char) :=
  if n.HasValue then (n.m_children.headD (.mk NodeType.None [] [])).m_text |> some
  else Option.none

/-- `Papr::Node::RemoveNodeAtIndex` (papr.hpp lines 718-721):
`m_children.erase( m_children.begin() + idx )`. -/
def Node.RemoveNodeAtIndex (n : Node) (idx : Nat) : Node :=
  match n with
  | .mk ty tx cs => .mk ty tx (cs.eraseIdx idx)

/-- No simplification rule fires at a node of kind `ty` with children `cs`:
rule 1 (lone `Group` child under a `Key`), rule 2 (two or more all-`Value`
children under a `Key`/`Group`) and rule 3 (childless `Key`) all fail. -/
def LocalSimplified (ty : NodeType) (cs : List Node) : Prop :=
  (∀ gx gcs, ¬(ty = NodeType.Key ∧ cs = [Node.mk NodeType.Group gx gcs])) ∧
  ¬((ty = NodeType.Key ∨ ty = NodeType.Group) ∧ 1 < cs.length ∧
    (∀ c ∈ cs, c.m_type = NodeType.Value)) ∧
  ¬(ty = NodeType.Key ∧ cs = [])

/-- A tree on which `Simplify` is the identity: no rule fires anywhere. -/
inductive Simplified : Node → Prop where
  | intro (ty : NodeType) (tx : List Char) (cs : List Node)
      (hchildren : ∀ c ∈ cs, Simplified c) (hlocal : LocalSimplified ty cs) :
      Simplified (.mk ty tx cs)

/-- The node is not a `Group` whose only child is itself a `Group`. -/
def LocalNoGroupChain (ty : NodeType) (cs : List Node) : Prop :=
  ∀ gx gcs, ¬(ty = NodeType.Group ∧ cs = [Node.mk NodeType.Group gx gcs])

/-- A tree containing no `Group` node whose only child is itself a `Group`.
The raw trees produced by the tree builder satisfy this (a `Group` child is
only ever attached under a `Text`-anchored, hence `Key`, node), but trees
built freely through the node model need not. -/
inductive NoGroupChain : Node → Prop where
  | intro (ty : NodeType) (tx : List Char) (cs : List Node)
      (hchildren : ∀ c ∈ cs, NoGroupChain c) (hlocal : LocalNoGroupChain ty cs) :
      NoGroupChain (.mk ty tx cs)

/-! General lemmas about the embedding. -/

@[simp] theorem Node.m_type_mk (ty : NodeType) (tx : List Char) (cs : List Node) :
    (Node.mk ty tx cs).m_type = ty := rfl

@[simp] theorem Node.m_text_mk (ty : NodeType) (tx : List Char) (cs : List Node) :
    (Node.mk ty tx cs).m_text = tx := rfl

@[simp] theorem Node.m_children_mk (ty : NodeType) (tx : List Char) (cs : List Node) :
    (Node.mk ty tx cs).m_children = cs := rfl

theorem Node.simplifyList_eq_map (cs : List Node) :
    Node.simplifyList cs = cs.map Node.Simplify := by
  induction cs with
  | nil => rfl
  | cons c cs ih => simp [Node.simplifyList, ih]

theorem Node.Simplify_mk (ty : NodeType) (tx : List Char) (cs : List Node) :
    Node.Simplify (.mk ty tx cs) = applyRules ty tx (Node.simplifyList cs) := rfl

/-- Structural induction principle for the nested `Node` inductive. -/
theorem Node.inductionOn {P : Node → Prop}
    (h : ∀ ty tx cs, (∀ c ∈ cs, P c) → P (.mk ty tx cs)) : ∀ n, P n := by
  have key : ∀ N : Nat, ∀ n : Node, sizeOf n ≤ N → P n := by
    intro N
    induction N with
    | zero =>
      intro n hn
      cases n with
      | mk ty tx cs => simp [Node.mk.sizeOf_spec] at hn
    | succ N ih =>
      intro n hn
      cases n with
      | mk ty tx cs =>
        apply h
        intro c hc
        apply ih
        have h1 := List.sizeOf_lt_of_mem hc
        have h2 : sizeOf (Node.mk ty tx cs) = 1 + sizeOf ty + sizeOf tx + sizeOf cs := by
          simp [Node.mk.sizeOf_spec]
        omega
  intro n
  exact key (sizeOf n) n le_rfl

theorem Node.Simplify_m_text (n : Node) : (Node.Simplify n).m_text = n.m_text := by
  cases n; rfl

theorem retypeEmptyKey_of_ne_key {ty : NodeType} (cs : List Node)
    (h : ty ≠ NodeType.Key) : retypeEmptyKey ty cs = ty := by
  simp [retypeEmptyKey, h]

theorem collapseLoneGroup_of_ne_key {ty : NodeType} (cs : List Node)
    (h : ty ≠ NodeType.Key) : collapseLoneGroup ty cs = cs := by
  cases ty with
  | Key => exact absurd rfl h
  | None => rfl
  | Group => rfl
  | Value => rfl

theorem collapseLoneGroup_of_len_ne_one {ty : NodeType} {cs : List Node}
    (h : cs.length ≠ 1) : collapseLoneGroup ty cs = cs := by
  cases ty with
  | Key =>
    match cs with
    | [] => rfl
    | [c] => exact absurd rfl h
    | c :: c2 :: rest => cases c with | mk cty cx ccs => cases cty <;> rfl
  | None => rfl
  | Group => rfl
  | Value => rfl

theorem collapseLoneGroup_singleton_of_ne_group {ty : NodeType} {c : Node}
    (h : c.m_type ≠ NodeType.Group) : collapseLoneGroup ty [c] = [c] := by
  cases ty with
  | Key =>
    cases c with
    | mk cty cx ccs => cases cty with
      | Group => exact absurd rfl h
      | None => rfl
      | Key => rfl
      | Value => rfl
  | None => rfl
  | Group => rfl
  | Value => rfl

theorem Node.Simplify_m_type_of_ne_key {n : Node} (h : n.m_type ≠ NodeType.Key) :
    (Node.Simplify n).m_type = n.m_type := by
  cases n with
  | mk ty tx cs =>
    simp only [Node.m_type_mk] at h
    simp [Node.Simplify_mk, applyRules, retypeEmptyKey_of_ne_key _ h]

theorem Node.Simplify_m_type_group_iff (n : Node) :
    (Node.Simplify n).m_type = NodeType.Group ↔ n.m_type = NodeType.Group := by
  cases n with
  | mk ty tx cs =>
    by_cases hty : ty = NodeType.Key
    · subst hty
      have hne : ∀ cs3 : List Node, retypeEmptyKey NodeType.Key cs3 ≠ NodeType.Group := by
        intro cs3
        unfold retypeEmptyKey
        split <;> simp
      simp [Node.Simplify_mk, applyRules, hne _]
    · simp [Node.Simplify_mk, applyRules, retypeEmptyKey_of_ne_key _ hty]

/-! Claim theorems. -/

set_option maxRecDepth 10000 in
/-- C2: `parse` is total (it is a Lean function into `Option Node`, with
`none` modelling the invalid sentinel, so it never throws or unwinds), and
parsing a document that begins with a colon token with no preceding text
token, such as the input `": x"`, returns the invalid sentinel. -/
theorem parse_colon_without_text_returns_invalid :
    Parse (": x") = Option.none := rfl

set_option maxRecDepth 10000 in
/-- C9: when tokenization yields no tokens at all, `Parse` returns a valid
root node (not the invalid sentinel) with zero children; and the empty
string, whitespace-only input and comment-only input all tokenize to no
tokens. -/
theorem parse_of_no_tokens_is_empty_root :
    (∀ d : String, Internal.Tokenize d = [] →
      Parse d = some (.mk NodeType.None [] [])) ∧
    Internal.Tokenize ("") = [] ∧
    Internal.Tokenize ("   \n  ") = [] ∧
    Internal.Tokenize ("# only a comment") = [] := by
  refine ⟨?_, rfl, rfl, rfl⟩
  intro d h
  simp [Parse, h]
  rfl

/-- Witness for C9: the empty document parses to a valid, childless root. -/
theorem parse_of_no_tokens_is_empty_root_witness :
    Parse ("") = some (.mk NodeType.None [] []) :=
  parse_of_no_tokens_is_empty_root.1 ("") rfl

/-- C10: under the precondition that the index is strictly below the number
of children, `RemoveNodeAtIndex` removes exactly the child at that index and
preserves the relative order of the remaining children, leaving the node's
kind and text unchanged. -/
theorem removeNodeAtIndex_removes_exactly_that_child :
    ∀ (ty : NodeType) (tx : List Char) (cs : List Node) (idx : Nat),
      idx < cs.length →
      Node.RemoveNodeAtIndex (.mk ty tx cs) idx =
        .mk ty tx (cs.take idx ++ cs.drop (idx + 1)) := by
  intro ty tx cs idx _
  simp [Node.RemoveNodeAtIndex, List.eraseIdx_eq_take_drop_succ]

/-- Witness for C10 at a concrete two-child node and index 1. -/
theorem removeNodeAtIndex_removes_exactly_that_child_witness :
    1 < [Node.mk NodeType.Value ['a'] [], Node.mk NodeType.Value ['b'] []].length ∧
    Node.RemoveNodeAtIndex
        (.mk NodeType.Group [] [.mk NodeType.Value ['a'] [], .mk NodeType.Value ['b'] []]) 1 =
      .mk NodeType.Group [] [.mk NodeType.Value ['a'] []] :=
  ⟨by decide,
   removeNodeAtIndex_removes_exactly_that_child NodeType.Group []
     [.mk NodeType.Value ['a'] [], .mk NodeType.Value ['b'] []] 1 (by decide)⟩

/-- C5, counterexample: a Colon-triggered anchor search (flag `Text`) that
reaches the bottom frame with column 1 > 0 does NOT match the synthetic root
frame - the root frame's `None` kind fails the `Text` mask and the stack is
exhausted, so `":a"` parses to the invalid sentinel instead of attaching to
the root. -/
theorem root_frame_fails_colon_search_counterexample :
    seekFn 1 Internal.TokenType.Text.flag [rootFrameToken] = [] ∧
    Parse (":a") = Option.none := ⟨rfl, rfl⟩

/-- C5, amended: the synthetic bottom frame (column 0, kind `None`)
satisfies every anchor search triggered by a Text token (mask
`Colon | None`) whose token column is greater than 0 - such a search never
exhausts the stack - but an anchor search triggered by a Colon token (mask
`Text`) is never satisfied by the bottom frame. -/
theorem root_frame_matches_text_searches_only :
    (∀ (col : Nat) (stack : List Internal.Token), 0 < col →
      seekFn col (Internal.TokenType.Colon.flag ||| Internal.TokenType.None.flag)
        (stack ++ [rootFrameToken]) ≠ []) ∧
    (∀ col : Nat, seekFn col Internal.TokenType.Text.flag [rootFrameToken] = []) := by
  constructor
  · intro col stack h
    induction stack with
    | nil =>
      simp only [List.nil_append, seekFn]
      rw [if_pos ⟨h, by decide⟩]
      simp
    | cons t rest ih =>
      simp only [List.cons_append, seekFn]
      by_cases hc : t.column < col ∧
          t.ttype.flag &&& (Internal.TokenType.Colon.flag ||| Internal.TokenType.None.flag) ≠ 0
      · rw [if_pos hc]
        simp
      · rw [if_neg hc]
        exact ih
  · intro col
    have hcond : ¬(rootFrameToken.column < col ∧
        rootFrameToken.ttype.flag &&& Internal.TokenType.Text.flag ≠ 0) := by
      rintro ⟨-, hflag⟩
      exact hflag (by decide)
    simp only [seekFn]
    rw [if_neg hcond]

/-- Witness for C5 (amended): a Text-token search over a one-frame stack on
top of the bottom frame succeeds rather than exhausting the stack. -/
theorem root_frame_matches_text_searches_only_witness :
    (0 : Nat) < 3 ∧
    seekFn 3 (Internal.TokenType.Colon.flag ||| Internal.TokenType.None.flag)
      ([{ ttype := Internal.TokenType.Text, text := [], column := 2, line := 1 }] ++
        [rootFrameToken]) ≠ [] :=
  ⟨by decide,
   root_frame_matches_text_searches_only.1 3
     [{ ttype := Internal.TokenType.Text, text := [], column := 2, line := 1 }] (by decide)⟩

set_option maxRecDepth 10000 in
/-- C1: evaluation of the round-trip pipeline at the failing input
`k: ""`. The document parses to a root holding key `k` with an empty
`Value`, but the serializer renders the empty value as nothing, so the
re-parse collapses the childless key into a bare `Value` node `k`:
`parse(serialize(parse(d)))` differs structurally from `parse(d)`. -/
theorem roundtrip_fails_on_empty_quoted_value :
    Parse ("k: \"\"") =
      some (.mk NodeType.None [] [.mk NodeType.Key ['k'] [.mk NodeType.Value [] []]]) ∧
    Serialize (.mk NodeType.None [] [.mk NodeType.Key ['k'] [.mk NodeType.Value [] []]]) =
      "k: \n" ∧
    Parse ("k: \n") = some (.mk NodeType.None [] [.mk NodeType.Value ['k'] []]) ∧
    Node.mk NodeType.None [] [.mk NodeType.Key ['k'] [.mk NodeType.Value [] []]] ≠
      Node.mk NodeType.None [] [.mk NodeType.Value ['k'] []] := by
  refine ⟨rfl, rfl, rfl, ?_⟩
  intro h
  exact absurd (congrArg (fun n => n.m_children.map Node.m_type) h) (by decide)

theorem findKeyChild_eq_none {cs : List Node} {k : List Char}
    (h : ∀ c ∈ cs, ¬(c.m_type = NodeType.Key ∧ c.m_text = k)) :
    findKeyChild cs k = Option.none := by
  induction cs with
  | nil => rfl
  | cons c cs ih =>
    simp only [findKeyChild]
    rw [if_neg (h c (List.mem_cons_self c cs))]
    exact ih (fun c' hc' => h c' (List.mem_cons_of_mem c hc'))

theorem findKeyChild_first_match {pre post : List Node} {c : Node} {k : List Char}
    (hpre : ∀ c' ∈ pre, ¬(c'.m_type = NodeType.Key ∧ c'.m_text = k))
    (hty : c.m_type = NodeType.Key) (htx : c.m_text = k) :
    findKeyChild (pre ++ c :: post) k = some c := by
  induction pre with
  | nil =>
    simp only [List.nil_append, findKeyChild]
    rw [if_pos ⟨hty, htx⟩]
  | cons p pre ih =>
    simp only [List.cons_append, findKeyChild]
    rw [if_neg (hpre p (List.mem_cons_self p pre))]
    exact ih (fun c' hc' => hpre c' (List.mem_cons_of_mem p hc'))

/-- C8: every lookup miss returns the invalid sentinel (modelled as `none`):
positional indexing with an out-of-range index misses; key lookup returns
the first child that is a `Key` node with exactly matching text, and misses
when no child matches; and `GetValue` on a node that does not have exactly
one `Value` child misses. -/
theorem lookup_misses_return_sentinel :
    (∀ (n : Node) (i : Nat), n.m_children.length ≤ i →
      n.getAtIndex i = Option.none) ∧
    (∀ (n : Node) (k : List Char),
      (∀ c ∈ n.m_children, ¬(c.m_type = NodeType.Key ∧ c.m_text = k)) →
      n.getByKey k = Option.none) ∧
    (∀ (ty : NodeType) (tx k : List Char) (pre post : List Node) (c : Node),
      (∀ c' ∈ pre, ¬(c'.m_type = NodeType.Key ∧ c'.m_text = k)) →
      c.m_type = NodeType.Key → c.m_text = k →
      Node.getByKey (.mk ty tx (pre ++ c :: post)) k = some c) ∧
    (∀ n : Node, (∀ c : Node, n.m_children = [c] → c.m_type ≠ NodeType.Value) →
      n.GetValue = Option.none) := by
  refine ⟨?_, ?_, ?_, ?_⟩
  · intro n i h
    simp only [Node.getAtIndex]
    rw [dif_neg (by omega)]
  · intro n k h
    exact findKeyChild_eq_none h
  · intro ty tx k pre post c hpre hty htx
    exact findKeyChild_first_match hpre hty htx
  · intro n h
    cases n with
    | mk ty tx cs =>
      match cs with
      | [] => cases ty <;> rfl
      | [c] =>
        have hc : c.m_type ≠ NodeType.Value := h c rfl
        simp only [Node.GetValue, Node.HasValue, Node.m_children_mk, Node.m_type_mk]
        rw [if_neg]
        simp [hc]
      | c :: c2 :: rest => cases ty <;> rfl

/-- Witness for C8: each of the three hypothesised miss conjuncts applied at
a concrete node. -/
theorem lookup_misses_return_sentinel_witness :
    (Node.mk NodeType.Group [] [.mk NodeType.Value ['a'] []]).getAtIndex 5 = Option.none ∧
    (Node.mk NodeType.Group [] [.mk NodeType.Value ['a'] []]).getByKey ['x'] = Option.none ∧
    Node.getByKey
        (.mk NodeType.Group []
          ([.mk NodeType.Value ['a'] []] ++ (Node.mk NodeType.Key ['x'] []) :: []))
        ['x'] = some (.mk NodeType.Key ['x'] []) ∧
    (Node.mk NodeType.Key ['k'] [.mk NodeType.Key ['x'] []]).GetValue = Option.none :=
  ⟨lookup_misses_return_sentinel.1 _ 5 (by decide),
   lookup_misses_return_sentinel.2.1 _ ['x'] (by decide),
   lookup_misses_return_sentinel.2.2.1 NodeType.Group [] ['x']
     [.mk NodeType.Value ['a'] []] [] (.mk NodeType.Key ['x'] []) (by decide) rfl rfl,
   lookup_misses_return_sentinel.2.2.2 _ (by
     intro c hc
     have he : Node.mk NodeType.Key ['x'] [] = c := by
       simpa using congrArg (fun l => l.headD (Node.mk NodeType.None [] [])) hc
     rw [← he]
     decide)⟩

theorem combineTexts_map_simplify (cs : List Node) :
    combineTexts (cs.map Node.Simplify) = combineTexts cs := by
  induction cs with
  | nil => rfl
  | cons c cs ih =>
    cases cs with
    | nil => simp [combineTexts, Node.Simplify_m_text]
    | cons c2 cs2 =>
      simp only [List.map_cons, combineTexts] at ih ⊢
      rw [Node.Simplify_m_text]
      rw [show (Node.Simplify c2 :: cs2.map Node.Simplify) =
            (c2 :: cs2).map Node.Simplify from rfl] at ih ⊢
      rw [ih]

set_option maxRecDepth 10000 in
/-- C7: a `Key` or `Group` node with two or more children, all of them
`Value` nodes, is simplified to carry a single `Value` child whose text is
the original children's texts, in order, joined by a single space each
(`combineTexts`); consequently a key whose value continues on a following
physical line without a leading colon parses to one scalar `Value` made of
the two lines' trimmed texts joined by a single space. -/
theorem all_value_children_merge :
    (∀ (ty : NodeType) (tx : List Char) (cs : List Node),
      (ty = NodeType.Key ∨ ty = NodeType.Group) → 1 < cs.length →
      (∀ c ∈ cs, c.m_type = NodeType.Value) →
      Node.Simplify (.mk ty tx cs) =
        .mk ty tx [.mk NodeType.Value (combineTexts cs) []]) ∧
    Parse ("k: a\n   b") =
      some (.mk NodeType.None []
        [.mk NodeType.Key ['k'] [.mk NodeType.Value ['a', ' ', 'b'] []]]) := by
  refine ⟨?_, rfl⟩
  intro ty tx cs hty hlen hval
  rw [Node.Simplify_mk, Node.simplifyList_eq_map]
  unfold applyRules
  rw [collapseLoneGroup_of_len_ne_one (by simp; omega)]
  have hcond : (ty = NodeType.Key ∨ ty = NodeType.Group) ∧
      1 < (cs.map Node.Simplify).length ∧
      (∀ c ∈ cs.map Node.Simplify, c.m_type = NodeType.Value) := by
    refine ⟨hty, by simp; omega, ?_⟩
    intro c' hc'
    rcases List.mem_map.1 hc' with ⟨c, hc, rfl⟩
    have hv := hval c hc
    have hnk : c.m_type ≠ NodeType.Key := by rw [hv]; decide
    rw [Node.Simplify_m_type_of_ne_key hnk]
    exact hv
  unfold mergeAllValues retypeEmptyKey
  rw [if_pos hcond, combineTexts_map_simplify]
  rw [if_neg (by simp [Node.MakeValue])]
  rfl

/-- Witness for C7: simplifying a `Group` node with two `Value` children
yields one space-joined `Value` child. -/
theorem all_value_children_merge_witness :
    ((NodeType.Group = NodeType.Key ∨ NodeType.Group = NodeType.Group) ∧
      1 < [Node.mk NodeType.Value ['a'] [], Node.mk NodeType.Value ['b'] []].length) ∧
    Node.Simplify
        (.mk NodeType.Group [] [.mk NodeType.Value ['a'] [], .mk NodeType.Value ['b'] []]) =
      .mk NodeType.Group [] [.mk NodeType.Value ['a', ' ', 'b'] []] :=
  ⟨⟨Or.inr rfl, by decide⟩,
   all_value_children_merge.1 NodeType.Group []
     [.mk NodeType.Value ['a'] [], .mk NodeType.Value ['b'] []]
     (Or.inr rfl) (by decide) (by
       intro c hc
       simp only [List.mem_cons, List.not_mem_nil, or_false] at hc
       rcases hc with h | h <;> simp [h])⟩

namespace Internal

theorem tokenizeStep_in_comment {s : TokenizeState} {pc c nc : Char}
    (hq : s.inQuotes = false) (hcm : s.inComment = true)
    (ht : s.tokenHasContent = true) (hn : c ≠ '\n') :
    tokenizeStep s pc c nc = { s with charCol := s.charCol + 1 } := by
  simp [tokenizeStep, hq, hcm, ht, hn]

theorem tokenizeStep_comment_newline {s : TokenizeState} {pc nc : Char}
    (hq : s.inQuotes = false) (hcm : s.inComment = true)
    (ht : s.tokenHasContent = true) :
    tokenizeStep s pc '\n' nc =
      { s with charCol := 0, charLine := s.charLine + 1, pendingToken := [],
               tokenHasContent := false, inComment := false } := by
  simp [tokenizeStep, hq, hcm, ht, isDelimiter]

theorem tokenizeStep_hash {s : TokenizeState} {pc nc : Char}
    (hq : s.inQuotes = false) (_hcm : s.inComment = false)
    (ht : s.tokenHasContent = true) :
    tokenizeStep s pc '#' nc =
      { s with charCol := s.charCol + 1, inComment := true } := by
  simp [tokenizeStep, hq, ht, isDelimiter]

set_option maxHeartbeats 1000000 in
theorem tokenize_comment_run :
    ∀ (b : List Char), '\n' ∉ b →
    ∀ (s : TokenizeState) (pc : Char) (rest : List Char),
      s.inComment = true → s.inQuotes = false → s.tokenHasContent = true →
      tokenizeGo s pc (b ++ '\n' :: rest) =
        tokenizeGo
          { s with charCol := 0, charLine := s.charLine + 1, pendingToken := [],
                   tokenHasContent := false, inComment := false } '\n' rest := by
  intro b
  induction b with
  | nil =>
    intro _ s pc rest hcm hq ht
    simp only [List.nil_append, tokenizeGo]
    rw [tokenizeStep_comment_newline hq hcm ht]
  | cons x b ih =>
    intro hmem s pc rest hcm hq ht
    have hx : x ≠ '\n' := by
      intro h
      exact hmem (h ▸ List.mem_cons_self x b)
    have hb : '\n' ∉ b := fun h => hmem (List.mem_cons_of_mem x h)
    simp only [List.cons_append, tokenizeGo]
    rw [tokenizeStep_in_comment hq hcm ht hx]
    exact ih hb _ x rest hcm hq ht

/-- C4: when the tokenizer meets an unquoted `#` (outside a comment, with
token content already accumulated), the `#`, everything up to the next
newline, and the partially-accumulated token content are all discarded: the
scan resumes after the newline with an empty accumulator, no new token
having been emitted (the `tokens` field is untouched), only the line counter
advancing. -/
theorem comment_discards_line_and_pending :
    ∀ (s : TokenizeState) (pc : Char) (b rest : List Char),
      s.inQuotes = false → s.inComment = false → s.tokenHasContent = true →
      '\n' ∉ b →
      tokenizeGo s pc ('#' :: (b ++ '\n' :: rest)) =
        tokenizeGo
          { s with charCol := 0, charLine := s.charLine + 1, pendingToken := [],
                   tokenHasContent := false } '\n' rest := by
  intro s pc b rest hq hcm ht hb
  simp only [tokenizeGo]
  rw [tokenizeStep_hash hq hcm ht]
  rw [tokenize_comment_run b hb
    { s with charCol := s.charCol + 1, inComment := true } '#' rest rfl hq ht]
  rw [hcm]

/-- Witness for C4 at a concrete scanner state with pending content `ab`
and comment body `c `. -/
theorem comment_discards_line_and_pending_witness :
    (({ tokens := [], pendingToken := ['a', 'b'], charCol := 2, charLine := 1,
        tokenStartCol := 1, tokenStartLine := 1, inQuotes := false,
        tokenHasContent := true, inComment := false } : TokenizeState).inQuotes = false ∧
      '\n' ∉ ['c', ' ']) ∧
    tokenizeGo
        { tokens := [], pendingToken := ['a', 'b'], charCol := 2, charLine := 1,
          tokenStartCol := 1, tokenStartLine := 1, inQuotes := false,
          tokenHasContent := true, inComment := false } 'b'
        ('#' :: (['c', ' '] ++ '\n' :: ['x'])) =
      tokenizeGo
        { tokens := [], pendingToken := [], charCol := 0, charLine := 2,
          tokenStartCol := 1, tokenStartLine := 1, inQuotes := false,
          tokenHasContent := false, inComment := false } '\n' ['x'] :=
  ⟨⟨rfl, by decide⟩,
   comment_discards_line_and_pending
     { tokens := [], pendingToken := ['a', 'b'], charCol := 2, charLine := 1,
       tokenStartCol := 1, tokenStartLine := 1, inQuotes := false,
       tokenHasContent := true, inComment := false } 'b' ['c', ' '] ['x']
     rfl rfl rfl (by decide)⟩

theorem dedentGo_replicate (col : Nat) : ∀ (k : Nat) (l : List Char),
    dedentGo col k (List.replicate k ' ' ++ l) = dedentGo col 0 l := by
  intro k
  induction k with
  | zero => intro l; rfl
  | succ k ih =>
    intro l
    simp only [List.replicate_succ, List.cons_append, dedentGo]
    rw [if_neg (by decide)]
    exact ih l

theorem dedentGo_sanitizeChars : ∀ (text : List Char) (col : Nat), '"' ∉ text →
    dedentGo col 0 (sanitizeChars col text) = text := by
  intro text
  induction text with
  | nil => intro col _; rfl
  | cons c cs ih =>
    intro col hmem
    have hc : c ≠ '"' := fun h => hmem (h ▸ List.mem_cons_self c cs)
    have hcs : '"' ∉ cs := fun h => hmem (List.mem_cons_of_mem c h)
    by_cases hn : c = '\n'
    · subst hn
      have hstep : sanitizeChars col ('\n' :: cs) =
          '\n' :: (add_spaces col ++ sanitizeChars col cs) := by
        simp [sanitizeChars]
      have hd : dedentGo col 0 ('\n' :: (add_spaces col ++ sanitizeChars col cs)) =
          '\n' :: dedentGo col col (add_spaces col ++ sanitizeChars col cs) := by
        simp [dedentGo]
      rw [hstep, hd, add_spaces, dedentGo_replicate, ih col hcs]
    · have hstep : sanitizeChars col (c :: cs) = c :: sanitizeChars col cs := by
        simp [sanitizeChars, hc, hn]
      have hd : dedentGo col 0 (c :: sanitizeChars col cs) =
          c :: dedentGo col 0 (sanitizeChars col cs) := by
        simp [dedentGo, hn]
      rw [hstep, hd, ih col hcs]

theorem trimSpaces_quote_wrapped (s : List Char) :
    trimSpaces ('"' :: (s ++ ['"'])) = '"' :: (s ++ ['"']) := by
  have h1 : (('"' :: (s ++ ['"'])).findIdx? (fun c => c != ' ')).getD 0 = 0 := rfl
  have h2 : ('"' :: (s ++ ['"'])).reverse.findIdx? (fun c => c != ' ') = some 0 := by
    have hrev : ('"' :: (s ++ ['"'])).reverse = '"' :: (s.reverse ++ ['"']) := by
      simp
    rw [hrev]
    rfl
  have hlen : ('"' :: (s ++ ['"'])).length = s.length + 2 := by simp
  simp only [trimSpaces, h1, h2, hlen]
  simp only [List.drop_zero, Nat.sub_zero]
  rw [show s.length + 2 - 1 + 1 = ('"' :: (s ++ ['"'])).length from by simp]
  exact List.take_length _

theorem Trim_quote_wrapped (s : List Char) (col : Nat) :
    Trim ('"' :: (s ++ ['"'])) col = dedentGo col 0 s := by
  have hlast : ('"' :: (s ++ ['"'])).getLast? = some '"' := by
    rw [show ('"' :: (s ++ ['"'])) = ('"' :: s) ++ ['"'] from by simp]
    exact List.getLast?_concat _
  simp only [Trim, trimSpaces_quote_wrapped, hlast, List.drop_one, List.tail_cons,
    List.length_cons, List.length_append, List.length_nil, List.length_singleton]
  norm_num
  rw [show s.length + 1 + 1 - 2 = s.length from by omega]
  rw [List.take_left]

/-- C6, amended: the `sanitize_string` lambda re-pads each line after an
embedded newline with exactly `col` spaces, where the serializer passes
`col = depth + 1` (one more than the node's depth offset: the 1-based column
at which the quoted token starts), and re-trimming the quoted output with
that same start column recovers the exact original content, for texts
without embedded double quotes. -/
theorem quoted_newline_padding_roundtrip :
    ∀ (text : List Char) (col : Nat),
      sanitizeNeeded text = true → '"' ∉ text →
      Trim (sanitize_string text col) col = text := by
  intro text col h hq
  simp only [sanitize_string, h, if_true]
  rw [Trim_quote_wrapped]
  exact dedentGo_sanitizeChars text col hq

set_option maxRecDepth 10000 in
/-- C6, counterexample: a value node rendered at depth 3 (under the key `k`)
has its embedded newline padded with 4 = depth + 1 spaces, not with exactly
`depth` = 3 spaces as the claim states. -/
theorem quoted_newline_padding_counterexample :
    Serialize
        (.mk NodeType.None []
          [.mk NodeType.Key ['k'] [.mk NodeType.Value ['a', '\n', 'b'] []]]) =
      "k: \"a\n    b\"\n" ∧
    "k: \"a\n    b\"\n" ≠ "k: \"a\n   b\"\n" :=
  ⟨rfl, by decide⟩

/-- Witness for C6 (amended) at the text `a\nb` and column 4. -/
theorem quoted_newline_padding_roundtrip_witness :
    (sanitizeNeeded ['a', '\n', 'b'] = true ∧ '"' ∉ ['a', '\n', 'b']) ∧
    Trim (sanitize_string ['a', '\n', 'b'] 4) 4 = ['a', '\n', 'b'] :=
  ⟨⟨by decide, by decide⟩,
   quoted_newline_padding_roundtrip ['a', '\n', 'b'] 4 (by decide) (by decide)⟩

end Internal

theorem Simplified_children {ty : NodeType} {tx : List Char} {cs : List Node}
    (h : Simplified (.mk ty tx cs)) : ∀ c ∈ cs, Simplified c := by
  cases h with | intro _ _ _ hc _ => exact hc

theorem Simplified_local {ty : NodeType} {tx : List Char} {cs : List Node}
    (h : Simplified (.mk ty tx cs)) : LocalSimplified ty cs := by
  cases h with | intro _ _ _ _ hl => exact hl

theorem NoGroupChain_children {ty : NodeType} {tx : List Char} {cs : List Node}
    (h : NoGroupChain (.mk ty tx cs)) : ∀ c ∈ cs, NoGroupChain c := by
  cases h with | intro _ _ _ hc _ => exact hc

theorem NoGroupChain_local {ty : NodeType} {tx : List Char} {cs : List Node}
    (h : NoGroupChain (.mk ty tx cs)) : LocalNoGroupChain ty cs := by
  cases h with | intro _ _ _ _ hl => exact hl

theorem simplified_value (tx : List Char) : Simplified (.mk NodeType.Value tx []) := by
  refine Simplified.intro _ _ _ (fun c hc => absurd hc (List.not_mem_nil c)) ?_
  refine ⟨?_, ?_, ?_⟩
  · rintro gx gcs ⟨h, -⟩
    exact NodeType.noConfusion h
  · rintro ⟨h | h, -, -⟩ <;> exact NodeType.noConfusion h
  · rintro ⟨h, -⟩
    exact NodeType.noConfusion h

theorem noGroupChain_value (tx : List Char) : NoGroupChain (.mk NodeType.Value tx []) := by
  refine NoGroupChain.intro _ _ _ (fun c hc => absurd hc (List.not_mem_nil c)) ?_
  rintro gx gcs ⟨h, -⟩
  exact NodeType.noConfusion h

theorem collapseLoneGroup_eq_self_of {ty : NodeType} {cs : List Node}
    (h : ∀ gx gcs, ¬(ty = NodeType.Key ∧ cs = [Node.mk NodeType.Group gx gcs])) :
    collapseLoneGroup ty cs = cs := by
  by_cases hk : ty = NodeType.Key
  · subst hk
    match cs with
    | [] => rfl
    | [Node.mk cty cx ccs] =>
      by_cases hg : cty = NodeType.Group
      · subst hg
        exact absurd ⟨rfl, rfl⟩ (h cx ccs)
      · exact collapseLoneGroup_singleton_of_ne_group (by simpa using hg)
    | c :: c2 :: rest => exact collapseLoneGroup_of_len_ne_one (by simp)
  · exact collapseLoneGroup_of_ne_key _ hk

theorem applyRules_good (ty : NodeType) (tx : List Char) (cs : List Node)
    (hS : ∀ c ∈ cs, Simplified c) (hQ : ∀ c ∈ cs, NoGroupChain c)
    (hQl : LocalNoGroupChain ty cs) :
    Simplified (applyRules ty tx cs) ∧ NoGroupChain (applyRules ty tx cs) := by
  have singleValueGood : ∀ (ty' : NodeType), ty' = NodeType.Key ∨ ty' = NodeType.Group →
      ∀ (v : List Char),
      Simplified (.mk ty' tx [.mk NodeType.Value v []]) ∧
      NoGroupChain (.mk ty' tx [.mk NodeType.Value v []]) := by
    intro ty' hty' v
    have hch : ∀ c ∈ [Node.mk NodeType.Value v []], Simplified c := by
      intro c hc
      rw [List.mem_singleton.1 hc]
      exact simplified_value v
    have hchQ : ∀ c ∈ [Node.mk NodeType.Value v []], NoGroupChain c := by
      intro c hc
      rw [List.mem_singleton.1 hc]
      exact noGroupChain_value v
    constructor
    · refine Simplified.intro _ _ _ hch ⟨?_, ?_, ?_⟩
      · rintro gx gcs ⟨-, h⟩
        rw [List.cons.injEq] at h
        exact NodeType.noConfusion (congrArg Node.m_type h.1)
      · rintro ⟨-, h, -⟩
        simp at h
      · rintro ⟨-, h⟩
        exact List.noConfusion h
    · refine NoGroupChain.intro _ _ _ hchQ ?_
      rintro gx gcs ⟨hg, h⟩
      rw [List.cons.injEq] at h
      exact NodeType.noConfusion (congrArg Node.m_type h.1)
  cases ty with
  | None =>
    have hc : collapseLoneGroup NodeType.None cs = cs :=
      collapseLoneGroup_of_ne_key _ (by decide)
    have hm : mergeAllValues NodeType.None cs = cs := by
      unfold mergeAllValues
      rw [if_neg]
      rintro ⟨h | h, -, -⟩ <;> exact NodeType.noConfusion h
    have hr : retypeEmptyKey NodeType.None cs = NodeType.None :=
      retypeEmptyKey_of_ne_key _ (by decide)
    unfold applyRules
    rw [hc, hm, hr]
    constructor
    · refine Simplified.intro _ _ _ hS ⟨?_, ?_, ?_⟩
      · rintro gx gcs ⟨h, -⟩
        exact NodeType.noConfusion h
      · rintro ⟨h | h, -, -⟩ <;> exact NodeType.noConfusion h
      · rintro ⟨h, -⟩
        exact NodeType.noConfusion h
    · exact NoGroupChain.intro _ _ _ hQ hQl
  | Value =>
    have hc : collapseLoneGroup NodeType.Value cs = cs :=
      collapseLoneGroup_of_ne_key _ (by decide)
    have hm : mergeAllValues NodeType.Value cs = cs := by
      unfold mergeAllValues
      rw [if_neg]
      rintro ⟨h | h, -, -⟩ <;> exact NodeType.noConfusion h
    have hr : retypeEmptyKey NodeType.Value cs = NodeType.Value :=
      retypeEmptyKey_of_ne_key _ (by decide)
    unfold applyRules
    rw [hc, hm, hr]
    constructor
    · refine Simplified.intro _ _ _ hS ⟨?_, ?_, ?_⟩
      · rintro gx gcs ⟨h, -⟩
        exact NodeType.noConfusion h
      · rintro ⟨h | h, -, -⟩ <;> exact NodeType.noConfusion h
      · rintro ⟨h, -⟩
        exact NodeType.noConfusion h
    · exact NoGroupChain.intro _ _ _ hQ hQl
  | Group =>
    have hc : collapseLoneGroup NodeType.Group cs = cs :=
      collapseLoneGroup_of_ne_key _ (by decide)
    have hr : ∀ l : List Node, retypeEmptyKey NodeType.Group l = NodeType.Group :=
      fun l => retypeEmptyKey_of_ne_key _ (by decide)
    by_cases hm : (NodeType.Group = NodeType.Key ∨ NodeType.Group = NodeType.Group) ∧
        1 < cs.length ∧ (∀ c ∈ cs, c.m_type = NodeType.Value)
    · have hmv : mergeAllValues NodeType.Group cs =
          [.mk NodeType.Value (combineTexts cs) []] := by
        unfold mergeAllValues
        rw [if_pos hm]
        rfl
      unfold applyRules
      rw [hc, hmv, hr]
      exact singleValueGood NodeType.Group (Or.inr rfl) (combineTexts cs)
    · have hmv : mergeAllValues NodeType.Group cs = cs := by
        unfold mergeAllValues
        rw [if_neg hm]
      unfold applyRules
      rw [hc, hmv, hr]
      constructor
      · refine Simplified.intro _ _ _ hS ⟨?_, ?_, ?_⟩
        · rintro gx gcs ⟨h, -⟩
          exact NodeType.noConfusion h
        · exact hm
        · rintro ⟨h, -⟩
          exact NodeType.noConfusion h
      · exact NoGroupChain.intro _ _ _ hQ hQl
  | Key =>
    match cs with
    | [] =>
      have hmv : mergeAllValues NodeType.Key ([] : List Node) = [] := by
        unfold mergeAllValues
        rw [if_neg]
        rintro ⟨-, h, -⟩
        simp at h
      have hr : retypeEmptyKey NodeType.Key ([] : List Node) = NodeType.Value := by
        unfold retypeEmptyKey
        rw [if_pos ⟨rfl, rfl⟩]
      unfold applyRules
      rw [show collapseLoneGroup NodeType.Key ([] : List Node) = [] from rfl, hmv, hr]
      exact ⟨simplified_value tx, noGroupChain_value tx⟩
    | [Node.mk cty cx ccs] =>
      by_cases hg : cty = NodeType.Group
      · subst hg
        have hcoll : collapseLoneGroup NodeType.Key [Node.mk NodeType.Group cx ccs] = ccs := rfl
        have hmemg : Node.mk NodeType.Group cx ccs ∈ [Node.mk NodeType.Group cx ccs] :=
          List.mem_singleton.2 rfl
        have hSc := Simplified_children (hS _ hmemg)
        have hSl := Simplified_local (hS _ hmemg)
        have hQc := NoGroupChain_children (hQ _ hmemg)
        have hQlg := NoGroupChain_local (hQ _ hmemg)
        by_cases hm : (NodeType.Key = NodeType.Key ∨ NodeType.Key = NodeType.Group) ∧
            1 < ccs.length ∧ (∀ c ∈ ccs, c.m_type = NodeType.Value)
        · have hmv : mergeAllValues NodeType.Key ccs =
              [.mk NodeType.Value (combineTexts ccs) []] := by
            unfold mergeAllValues
            rw [if_pos hm]
            rfl
          have hr : retypeEmptyKey NodeType.Key
              [Node.mk NodeType.Value (combineTexts ccs) []] = NodeType.Key := by
            unfold retypeEmptyKey
            rw [if_neg]
            rintro ⟨-, h⟩
            simp at h
          unfold applyRules
          rw [hcoll, hmv, hr]
          exact singleValueGood NodeType.Key (Or.inl rfl) (combineTexts ccs)
        · have hmv : mergeAllValues NodeType.Key ccs = ccs := by
            unfold mergeAllValues
            rw [if_neg hm]
          match hccs : ccs with
          | [] =>
            have hr : retypeEmptyKey NodeType.Key ([] : List Node) = NodeType.Value := by
              unfold retypeEmptyKey
              rw [if_pos ⟨rfl, rfl⟩]
            unfold applyRules
            rw [hcoll, hmv, hr]
            exact ⟨simplified_value tx, noGroupChain_value tx⟩
          | c0 :: ccs0 =>
            have hr : retypeEmptyKey NodeType.Key (c0 :: ccs0) = NodeType.Key := by
              unfold retypeEmptyKey
              rw [if_neg]
              rintro ⟨-, h⟩
              simp at h
            unfold applyRules
            rw [hcoll, hmv, hr]
            constructor
            · refine Simplified.intro _ _ _ hSc ⟨?_, ?_, ?_⟩
              · rintro gx gcs ⟨-, h⟩
                exact hQlg gx gcs ⟨rfl, h⟩
              · exact hm
              · rintro ⟨-, h⟩
                exact List.noConfusion h
            · refine NoGroupChain.intro _ _ _ hQc ?_
              rintro gx gcs ⟨h, -⟩
              exact NodeType.noConfusion h
      · have hcoll : collapseLoneGroup NodeType.Key [Node.mk cty cx ccs] =
            [Node.mk cty cx ccs] :=
          collapseLoneGroup_singleton_of_ne_group (by simpa using hg)
        have hmv : mergeAllValues NodeType.Key [Node.mk cty cx ccs] =
            [Node.mk cty cx ccs] := by
          unfold mergeAllValues
          rw [if_neg]
          rintro ⟨-, h, -⟩
          simp at h
        have hr : retypeEmptyKey NodeType.Key [Node.mk cty cx ccs] = NodeType.Key := by
          unfold retypeEmptyKey
          rw [if_neg]
          rintro ⟨-, h⟩
          simp at h
        unfold applyRules
        rw [hcoll, hmv, hr]
        constructor
        · refine Simplified.intro _ _ _ hS ⟨?_, ?_, ?_⟩
          · rintro gx gcs ⟨-, h⟩
            rw [List.cons.injEq] at h
            exact hg (by simpa using congrArg Node.m_type h.1)
          · rintro ⟨-, h, -⟩
            simp at h
          · rintro ⟨-, h⟩
            exact List.noConfusion h
        · refine NoGroupChain.intro _ _ _ hQ ?_
          rintro gx gcs ⟨h, -⟩
          exact NodeType.noConfusion h
    | c :: c2 :: rest =>
      have hcoll : collapseLoneGroup NodeType.Key (c :: c2 :: rest) = c :: c2 :: rest :=
        collapseLoneGroup_of_len_ne_one (by simp)
      by_cases hm : (NodeType.Key = NodeType.Key ∨ NodeType.Key = NodeType.Group) ∧
          1 < (c :: c2 :: rest).length ∧
          (∀ c' ∈ c :: c2 :: rest, c'.m_type = NodeType.Value)
      · have hmv : mergeAllValues NodeType.Key (c :: c2 :: rest) =
            [.mk NodeType.Value (combineTexts (c :: c2 :: rest)) []] := by
          unfold mergeAllValues
          rw [if_pos hm]
          rfl
        have hr : retypeEmptyKey NodeType.Key
            [Node.mk NodeType.Value (combineTexts (c :: c2 :: rest)) []] =
              NodeType.Key := by
          unfold retypeEmptyKey
          rw [if_neg]
          rintro ⟨-, h⟩
          simp at h
        unfold applyRules
        rw [hcoll, hmv, hr]
        exact singleValueGood NodeType.Key (Or.inl rfl) (combineTexts (c :: c2 :: rest))
      · have hmv : mergeAllValues NodeType.Key (c :: c2 :: rest) = c :: c2 :: rest := by
          unfold mergeAllValues
          rw [if_neg hm]
        have hr : retypeEmptyKey NodeType.Key (c :: c2 :: rest) = NodeType.Key := by
          unfold retypeEmptyKey
          rw [if_neg]
          rintro ⟨-, h⟩
          simp at h
        unfold applyRules
        rw [hcoll, hmv, hr]
        constructor
        · refine Simplified.intro _ _ _ hS ⟨?_, ?_, ?_⟩
          · rintro gx gcs ⟨-, h⟩
            rw [List.cons.injEq] at h
            exact List.noConfusion h.2
          · exact hm
          · rintro ⟨-, h⟩
            exact List.noConfusion h
        · refine NoGroupChain.intro _ _ _ hQ ?_
          rintro gx gcs ⟨h, -⟩
          exact NodeType.noConfusion h

theorem simplify_good : ∀ n : Node, NoGroupChain n →
    Simplified n.Simplify ∧ NoGroupChain n.Simplify := by
  refine Node.inductionOn ?_
  intro ty tx cs ih hQ
  have hQc := NoGroupChain_children hQ
  have hQl := NoGroupChain_local hQ
  rw [Node.Simplify_mk, Node.simplifyList_eq_map]
  have hS1 : ∀ c' ∈ cs.map Node.Simplify, Simplified c' := by
    intro c' hc'
    rcases List.mem_map.1 hc' with ⟨c, hc, rfl⟩
    exact (ih c hc (hQc c hc)).1
  have hQ1 : ∀ c' ∈ cs.map Node.Simplify, NoGroupChain c' := by
    intro c' hc'
    rcases List.mem_map.1 hc' with ⟨c, hc, rfl⟩
    exact (ih c hc (hQc c hc)).2
  have hQl1 : LocalNoGroupChain ty (cs.map Node.Simplify) := by
    rintro gx gcs ⟨hty, hmap⟩
    rcases cs with _ | ⟨c, _ | ⟨c2, r⟩⟩
    · simp at hmap
    · rw [List.map_cons, List.map_nil, List.cons.injEq] at hmap
      have hgrp : c.m_type = NodeType.Group := by
        rw [(Node.Simplify_m_type_group_iff c).symm, hmap.1]
        rfl
      rcases c with ⟨cty, cx, ccs⟩
      rw [Node.m_type_mk] at hgrp
      subst hgrp
      exact hQl cx ccs ⟨hty, rfl⟩
    · simp at hmap
  exact applyRules_good ty tx (cs.map Node.Simplify) hS1 hQ1 hQl1

theorem simplify_of_simplified : ∀ n : Node, Simplified n → n.Simplify = n := by
  refine Node.inductionOn ?_
  intro ty tx cs ih hS
  have hSc := Simplified_children hS
  obtain ⟨hl1, hl2, hl3⟩ := Simplified_local hS
  rw [Node.Simplify_mk, Node.simplifyList_eq_map]
  have hmap : cs.map Node.Simplify = cs := by
    rw [List.map_congr_left (fun c hc => ih c hc (hSc c hc))]
    exact List.map_id cs
  rw [hmap]
  unfold applyRules
  rw [collapseLoneGroup_eq_self_of hl1]
  have hmv : mergeAllValues ty cs = cs := by
    unfold mergeAllValues
    rw [if_neg hl2]
  have hr : retypeEmptyKey ty cs = ty := by
    unfold retypeEmptyKey
    rw [if_neg]
    rintro ⟨h1, h2⟩
    exact hl3 ⟨h1, List.length_eq_zero.1 h2⟩
  rw [hmv, hr]

/-- C3, amended: simplification is idempotent on every tree in which no
`Group` node has exactly one child that is itself a `Group` (in particular
on every raw tree the tree builder produces); on arbitrary trees
constructible in the node model this can fail, because rule 1 splices a
group's children under a key only one level per pass. -/
theorem simplify_idempotent_on_no_group_chain :
    ∀ t : Node, NoGroupChain t →
      Node.Simplify (Node.Simplify t) = Node.Simplify t :=
  fun t h => simplify_of_simplified _ (simplify_good t h).1

set_option maxRecDepth 10000 in
/-- C3, counterexample: on the constructible tree
`Key k [Group [Group [Value v]]]` one simplification pass yields
`Key k [Group [Value v]]` and a second pass changes it again to
`Key k [Value v]`, so `simplify (simplify t)` differs from `simplify t`. -/
theorem simplify_not_idempotent_counterexample :
    Node.Simplify (Node.Simplify
        (.mk NodeType.Key ['k']
          [.mk NodeType.Group [] [.mk NodeType.Group [] [.mk NodeType.Value ['v'] []]]])) ≠
      Node.Simplify
        (.mk NodeType.Key ['k']
          [.mk NodeType.Group [] [.mk NodeType.Group [] [.mk NodeType.Value ['v'] []]]]) := by
  intro h
  exact absurd (congrArg (fun n => n.m_children.map Node.m_type) h) (by decide)

/-- Witness for C3 (amended) at the chain-free tree `Key k [Group [Value v]]`. -/
theorem simplify_idempotent_on_no_group_chain_witness :
    NoGroupChain
        (.mk NodeType.Key ['k'] [.mk NodeType.Group [] [.mk NodeType.Value ['v'] []]]) ∧
    Node.Simplify (Node.Simplify
        (.mk NodeType.Key ['k'] [.mk NodeType.Group [] [.mk NodeType.Value ['v'] []]])) =
      Node.Simplify
        (.mk NodeType.Key ['k'] [.mk NodeType.Group [] [.mk NodeType.Value ['v'] []]]) := by
  have hv : NoGroupChain (.mk NodeType.Value ['v'] []) := noGroupChain_value ['v']
  have hg : NoGroupChain (.mk NodeType.Group [] [.mk NodeType.Value ['v'] []]) := by
    refine NoGroupChain.intro _ _ _ ?_ ?_
    · intro c hc
      rw [List.mem_singleton.1 hc]
      exact hv
    · rintro gx gcs ⟨-, h⟩
      rw [List.cons.injEq] at h
      exact NodeType.noConfusion (congrArg Node.m_type h.1)
  have hk : NoGroupChain
      (.mk NodeType.Key ['k'] [.mk NodeType.Group [] [.mk NodeType.Value ['v'] []]]) := by
    refine NoGroupChain.intro _ _ _ ?_ ?_
    · intro c hc
      rw [List.mem_singleton.1 hc]
      exact hg
    · rintro gx gcs ⟨h, -⟩
      exact NodeType.noConfusion h
  exact ⟨hk, simplify_idempotent_on_no_group_chain _ hk⟩

end Papr
